import Mathlib

/-!
Shallow embedding of the core of the generational mark-and-sweep garbage
collector in `src/gc.c`, together with theorems settling the claims about
its specification.  Machine integers are modelled as `Nat` with explicit
`% 2^64` where overflow matters.
-/

namespace GCSpec

/-! ### GC mark bits

Modelled from the spec: the two GC bits in every tagged value header are
defined in the runtime headers (not part of this repository snapshot).
`CLEAN = 00`, `MARKED = 01`, `OLD = 10`, `OLD_MARKED = 11`; "marked" means
bit 0 is set. -/

def GC_CLEAN : Nat := 0
def GC_MARKED : Nat := 1
def GC_OLD : Nat := 2
def GC_OLD_MARKED : Nat := 3

/-- Modelled from the spec: `gc_marked(bits)` tests the low mark bit
("Marked = bit 0 set"). -/
def gc_marked (bits : Nat) : Bool := bits % 2 = 1

/-! ### Callback registration (`jl_gc_register_callback` /
`jl_gc_deregister_callback`, gc.c lines 40–65)

A callback list is a singly linked list of function pointers; we model the
function pointers as an arbitrary type with decidable equality. -/

/-- Source `jl_gc_register_callback`: walk the list; if `func` is already present
return unchanged, otherwise append a fresh node holding `func` at the end. -/
def jl_gc_register_callback {F : Type} [DecidableEq F] :
    List F → F → List F
  | [], func => [func]
  | f :: rest, func =>
      if f = func then f :: rest
      else f :: jl_gc_register_callback rest func

/-- Source `jl_gc_deregister_callback`: walk the list; unlink and free the first
node whose function equals `func`; leave the rest unchanged. -/
def jl_gc_deregister_callback {F : Type} [DecidableEq F] :
    List F → F → List F
  | [], _ => []
  | f :: rest, func =>
      if f = func then rest
      else f :: jl_gc_deregister_callback rest func

/-- Source `jl_gc_set_cb_X(cb, enable)`: every one of the six setters dispatches to
register on `enable` and deregister otherwise. -/
def jl_gc_set_cb {F : Type} [DecidableEq F] (list : List F) (func : F)
    (enable : Bool) : List F :=
  if enable then jl_gc_register_callback list func
  else jl_gc_deregister_callback list func

/-- N-fold repetition of `jl_gc_set_cb _ f true`. -/
def set_cb_enableN {F : Type} [DecidableEq F] (list : List F) (func : F) :
    Nat → List F
  | 0 => list
  | n + 1 => jl_gc_set_cb (set_cb_enableN list func n) func true

/-! ### `jl_gc_set_max_memory` (gc.c lines 3691–3696)

`max_total_memory` has type `memsize_t` (`uint64_t` on 64-bit platforms,
`uint32_t` on 32-bit); the argument `max_mem` is a `uint64_t`.  The guard is
`max_mem > 0 && max_mem < (uint64_t)1 << (sizeof(memsize_t) * 8 - 1)`. -/

/-- Source `jl_gc_set_max_memory`, parameterised by `sizeof(memsize_t)` in bytes
(8 on 64-bit, 4 on 32-bit) and by the current value of the
`max_total_memory` global; returns the new value of the global. -/
def jl_gc_set_max_memory (sizeof_memsize : Nat) (max_total_memory : Nat)
    (max_mem : Nat) : Nat :=
  if 0 < max_mem ∧ max_mem < 2 ^ (sizeof_memsize * 8 - 1) then max_mem
  else max_total_memory

/-! ### Weak references (gc.c lines 960–1017)

A weak reference object has its own tagged header (`hdr` bits) and a target
slot `value`.  The target is either the runtime's `jl_nothing` sentinel or
some other heap value; `clear_weak_refs` consults the mark bit of the
current target's header, which we model through a marking environment. -/

/-- The possible contents of a weak reference's target slot. -/
inductive JLValue where
  | nothingSentinel : JLValue
  | obj (id : Nat) : JLValue
deriving DecidableEq, Repr, Inhabited

/-- A weak reference: its own header mark bits and its target slot. -/
structure WeakRef where
  hdr : Nat
  value : JLValue
deriving DecidableEq, Repr, Inhabited

/-- Source `clear_weak_refs` body for one weak reference: the loop reads
`jl_astaggedvalue(wr->value)->bits.gc`; if the target is unmarked the target
slot is overwritten with `jl_nothing`, otherwise nothing is written.
`markedOf` gives the mark bit of each target's header at this point of the
collection. -/
def clear_weak_ref (markedOf : JLValue → Bool) (wr : WeakRef) : WeakRef :=
  if ¬ markedOf wr.value then { wr with value := JLValue.nothingSentinel }
  else wr

/-- Source `clear_weak_refs`: iterate over every thread's `heap.weak_refs` list
(a `NULL` thread state is skipped), applying the per-entry body in order. -/
def clear_weak_refs (markedOf : JLValue → Bool)
    (threads : List (Option (List WeakRef))) :
    List (Option (List WeakRef)) :=
  threads.map (Option.map (List.map (clear_weak_ref markedOf)))

/-- The per-entry liveness check of `sweep_weak_refs`:
`gc_marked(jl_astaggedvalue(wr)->bits.gc)` on the weak reference's own
header. -/
def wr_marked (wr : WeakRef) : Bool := gc_marked wr.hdr

/-- The three-statement swap of the `sweep_weak_refs` loop body:
```
void *tmp = lst[n];
lst[n] = lst[n + ndel];
lst[n + ndel] = tmp;
``` -/
def list_swap {α : Type} [Inhabited α] (lst : List α) (i j : Nat) :
    List α :=
  let tmp := lst.getD i default
  (lst.set i (lst.getD j default)).set j tmp

/-- The compaction loop of `sweep_weak_refs` for one thread's list
(entered only when `l > 0`):
```
while (1) {
    jl_weakref_t *wr = (jl_weakref_t*)lst[n];
    if (gc_marked(jl_astaggedvalue(wr)->bits.gc)) n++;
    else ndel++;
    if (n >= l - ndel) break;
    void *tmp = lst[n]; lst[n] = lst[n + ndel]; lst[n + ndel] = tmp;
}
```
The liveness check is abstracted as the predicate `p`. -/
def sweep_weak_refs_loop {α : Type} [Inhabited α] (p : α → Bool)
    (lst : List α) (n ndel l : Nat) : List α × Nat :=
  let wr := lst.getD n default
  if p wr then
    if h : l - ndel ≤ n + 1 then (lst, ndel)
    else sweep_weak_refs_loop p (list_swap lst (n + 1) (n + 1 + ndel))
      (n + 1) ndel l
  else
    if h : l - (ndel + 1) ≤ n then (lst, ndel + 1)
    else sweep_weak_refs_loop p (list_swap lst n (n + (ndel + 1)))
      n (ndel + 1) l
termination_by l - (n + ndel)
decreasing_by all_goals omega

/-- One thread's body of `sweep_weak_refs`: skip an empty list, otherwise
run the compaction loop from `n = ndel = 0` and shrink the length by the
number of deleted entries (`ptls2->heap.weak_refs.len -= ndel`). -/
def sweep_weak_refs_one {α : Type} [Inhabited α] (p : α → Bool)
    (lst : List α) : List α :=
  if lst.length = 0 then lst
  else
    let r := sweep_weak_refs_loop p lst 0 0 lst.length
    r.1.take (lst.length - r.2)

/-- Source `sweep_weak_refs`: the compaction applied to every thread's
weak-reference list (a `NULL` thread state is skipped). -/
def sweep_weak_refs (threads : List (Option (List WeakRef))) :
    List (Option (List WeakRef)) :=
  threads.map (Option.map (sweep_weak_refs_one wr_marked))

/-! ### Binding write barrier (`jl_gc_queue_binding`, gc.c lines 1749–1755)
and the remset/binding premark (`jl_gc_premark`, gc.c lines 3168–3190). -/

/-- A module binding: an identity plus its tagged header's GC bits. -/
structure Binding where
  id : Nat
  bits : Nat
deriving DecidableEq, Repr

/-- A remembered-set entry (an old object): identity plus header GC bits. -/
structure RObj where
  id : Nat
  bits : Nat
deriving DecidableEq, Repr

/-- The thread-local heap state touched by the barrier and the premark. -/
structure ThreadHeap where
  remset : List RObj
  last_remset : List RObj
  rem_bindings : List Binding
deriving Repr

/-- Source `jl_gc_queue_binding`: store `GC_MARKED` into the binding's header GC
bits, then `arraylist_push` the binding onto the calling thread's
`rem_bindings`.  Returns the new list together with the binding as mutated. -/
def jl_gc_queue_binding (rem_bindings : List Binding) (bnd : Binding) :
    List Binding × Binding :=
  let bnd' : Binding := { bnd with bits := GC_MARKED }
  (rem_bindings ++ [bnd'], bnd')

/-- Source `jl_gc_premark`: swap `remset`/`last_remset`, empty the new `remset`,
then tag every object of the frozen remset and every remembered binding
`GC_OLD_MARKED`. -/
def jl_gc_premark (h : ThreadHeap) : ThreadHeap :=
  { remset := [],
    last_remset := h.remset.map (fun o => { o with bits := GC_OLD_MARKED }),
    rem_bindings :=
      h.rem_bindings.map (fun b => { b with bits := GC_OLD_MARKED }) }

/-! ### Pool-page sweep (`sweep_page`, gc.c lines 1398–1512)

A pool page holds equal-size cells; each cell has the GC bits of its header
word and one bit in the page's age bitmap.  The cell walk of `sweep_page`
(`while ((char*)v <= lim) ...`) visits the cells in address order; we model
the cells of the page as a list in that order.  A page's metadata carries
the `has_marked`/`has_young` flags, the old counts `nold`/`prev_nold` and
the free count `nfree`; the freelist begin/end offsets and the page-reset
bookkeeping of the `!has_marked` branch are not modelled (no claim is about
them). -/

/-- One pool cell: header GC bits plus its bit in the page age bitmap. -/
structure CellState where
  bits : Nat
  age : Bool
deriving DecidableEq, Repr

/-- The accumulator of the cell walk of `sweep_page`: the local variables
`has_marked`, `has_young`, `prev_nold`, `pg_nfree`, `freedall`, plus the
per-cell outcome list (`none` = the cell was prepended to the reconstructed
freelist; `some bits'` = the cell survives with new header bits; the `Bool`
is the cell's age bit after the walk). -/
structure PageWalk where
  has_marked : Bool
  has_young : Bool
  prev_nold : Nat
  pg_nfree : Nat
  freedall : Bool
  swept : List (Option Nat × Bool)
deriving DecidableEq, Repr

/-- The body of the cell walk of `sweep_page` for one cell `v`:
```
int bits = v->bits.gc;
if (!gc_marked(bits)) { *pfl = v; ...; pg_nfree++; *ages &= ~msk; }
else {
    if (*ages & msk || bits == GC_OLD_MARKED) {
        if (sweep_full || bits == GC_MARKED) bits = v->bits.gc = GC_OLD;
        prev_nold++;
    } else { bits = v->bits.gc = GC_CLEAN; has_young = 1; }
    has_marked |= gc_marked(bits);
    *ages |= msk;
    freedall = 0;
}
``` -/
def sweep_page_step (sweep_full : Bool) (st : PageWalk) (c : CellState) :
    PageWalk :=
  if ¬ gc_marked c.bits then
    { st with pg_nfree := st.pg_nfree + 1,
              swept := st.swept ++ [(none, false)] }
  else if c.age ∨ c.bits = GC_OLD_MARKED then
    let bits' := if sweep_full ∨ c.bits = GC_MARKED then GC_OLD else c.bits
    { st with prev_nold := st.prev_nold + 1,
              has_marked := st.has_marked || gc_marked bits',
              freedall := false,
              swept := st.swept ++ [(some bits', true)] }
  else
    { st with has_young := true,
              has_marked := st.has_marked || gc_marked GC_CLEAN,
              freedall := false,
              swept := st.swept ++ [(some GC_CLEAN, true)] }

/-- The cell walk of `sweep_page` over the whole page, with the local
variables initialized as in the source (`has_marked = 0`, `has_young = 0`,
`prev_nold = 0`, `pg_nfree = 0`, `freedall = 1`). -/
def sweep_page_walk (sweep_full : Bool) (cells : List CellState) : PageWalk :=
  cells.foldl (sweep_page_step sweep_full) ⟨false, false, 0, 0, true, []⟩

/-- Pool-page metadata (the fields of `jl_gc_pagemeta_t` that `sweep_page`
dispatches on) together with the page's cells. -/
structure PageMeta where
  has_marked : Bool
  has_young : Bool
  nold : Nat
  prev_nold : Nat
  nfree : Nat
  cells : List CellState
deriving DecidableEq, Repr

/-- Which of the three branches of `sweep_page` handled the page. -/
inductive SweepAction where
  | freed
  | skipped
  | walked
deriving DecidableEq, Repr

/-- Source `sweep_page(p, pg, pfl, sweep_full, osize)`:
* `!pg->has_marked`: the page has no surviving object; it is returned to
  the pool's `newpages` or released (bookkeeping not modelled here).
* quick sweep with `!pg->has_young` and
  `!prev_sweep_full || pg->prev_nold == pg->nold`: the page is skipped; its
  precomputed freelist boundary is rewired from `fl_begin_offset` /
  `fl_end_offset` without walking cells, so the metadata is unchanged.
* otherwise every cell is walked and the metadata rebuilt from the walk
  (`pg->nold = 0` and `pg->prev_nold = prev_nold` on full sweeps only).
`prev_sweep_full` is the global flag recording whether the previous sweep
was a full one. -/
def sweep_page (sweep_full prev_sweep_full : Bool) (pg : PageMeta) :
    SweepAction × PageMeta × PageWalk :=
  if ¬ pg.has_marked then
    (SweepAction.freed, pg, ⟨false, false, 0, 0, true, []⟩)
  else if ¬ sweep_full ∧ ¬ pg.has_young ∧
      (¬ prev_sweep_full ∨ pg.prev_nold = pg.nold) then
    (SweepAction.skipped, pg, ⟨false, false, 0, 0, true, []⟩)
  else
    let w := sweep_page_walk sweep_full pg.cells
    (SweepAction.walked,
      { pg with
          has_marked := w.has_marked,
          has_young := w.has_young,
          nfree := w.pg_nfree,
          nold := if sweep_full then 0 else pg.nold,
          prev_nold := if sweep_full then w.prev_nold else pg.prev_nold },
      w)

/-! ### Big-object allocation (`jl_gc_big_alloc_inner`, gc.c lines 1023–1048) -/

/-- Modelled from the spec: `LLT_ALIGN(x, sz)` (defined in the runtime
headers, not in this snapshot) rounds `x` up to a multiple of the
power-of-two `sz` in `size_t` arithmetic: `((x + sz - 1) & ~(sz - 1))`
truncated to 64 bits. -/
def llt_align64 (x a : Nat) : Nat := (x + a - 1) % 2 ^ 64 / a * a

/-- Modelled from the spec: `JL_CACHE_BYTE_ALIGNMENT`, the cache-line
alignment used for big objects (64 bytes). -/
def JL_CACHE_BYTE_ALIGNMENT : Nat := 64

/-- Source `jl_gc_big_alloc_inner(ptls, sz)`:
```
size_t allocsz = LLT_ALIGN(sz + offs, JL_CACHE_BYTE_ALIGNMENT);
if (allocsz < sz)  // overflow in adding offs, size was "negative"
    jl_throw(jl_memory_exception);
bigval_t *v = (bigval_t*)malloc_cache_align(allocsz);
if (v == NULL)
    jl_throw(jl_memory_exception);
...
```
`offs = offsetof(bigval_t, header)` is a small header constant; the host
aligned allocator `malloc_cache_align` is modelled as an oracle `host`
returning `none` for `NULL`.  The result records whether the host
allocator was invoked, and `none` where `jl_throw(jl_memory_exception)`
is reached (the list linking and counter updates of the success path are
not modelled by any claim). -/
def jl_gc_big_alloc_inner (host : Nat → Option Nat) (offs sz : Nat) :
    Bool × Option (Nat × Nat) :=
  let allocsz := llt_align64 ((sz + offs) % 2 ^ 64) JL_CACHE_BYTE_ALIGNMENT
  if allocsz < sz then (false, none)
  else
    match host allocsz with
    | none => (true, none)
    | some v => (true, some (v, allocsz))

/-! ### Permanent allocation (`gc_perm_alloc_large`,
`gc_try_perm_alloc_pool`, `jl_gc_perm_alloc`, gc.c lines 3941–4028) -/

def GC_PERM_POOL_SIZE : Nat := 2 * 1024 * 1024
def GC_PERM_POOL_LIMIT : Nat := 20 * 1024

/-- The two globals of the permanent bump region. -/
structure PermState where
  gc_perm_pool : Nat
  gc_perm_end : Nat
deriving DecidableEq, Repr

/-- Source `gc_perm_alloc_large(sz, zero, align, offset)`: pad `sz` by
`align - 1` when extra alignment may be needed, call the host
`malloc`/`calloc` (oracle `host`, `0` = `NULL` ⇒ throw), then return
`base + (offset - base) % align` (the subtraction is 64-bit unsigned).
`malloc_align` is 16 on a 64-bit platform. -/
def gc_perm_alloc_large (host : Nat → Nat) (sz : Nat) (zero : Bool)
    (align offset : Nat) : Option Nat :=
  let malloc_align : Nat := 16
  let sz := if 1 < align ∧ (offset ≠ 0 ∨ malloc_align < align) then
      sz + align - 1
    else sz
  let base := host sz
  if base = 0 then none
  else
    let diff := ((offset + 2 ^ 64 - base % 2 ^ 64) % 2 ^ 64) % align
    some ((base + diff) % 2 ^ 64)

/-- Source `gc_try_perm_alloc_pool(sz, align, offset)`: bump-allocate from the
current permanent pool at `LLT_ALIGN(gc_perm_pool + offset, align) -
offset`; fail (return `NULL`) when the bump would pass `gc_perm_end`. -/
def gc_try_perm_alloc_pool (st : PermState) (sz : Nat) (align offset : Nat) :
    Option (Nat × PermState) :=
  let pool := llt_align64 (st.gc_perm_pool + offset) align - offset
  let endx := pool + sz
  if st.gc_perm_end < endx then none
  else some (pool, ⟨endx, st.gc_perm_end⟩)

/-- The tail of `jl_gc_perm_alloc_nolock` reached when the pool bump
failed: map a fresh `GC_PERM_POOL_SIZE` pool (oracle `mmapPool`, `none` =
`mmap`/`VirtualAlloc` failed, in which case `NULL` is returned with the
globals untouched), install `gc_perm_pool`/`gc_perm_end`, and retry
`gc_try_perm_alloc_pool`. -/
def perm_pool_retry : Option Nat → PermState → Nat → Nat → Nat →
    Option Nat × PermState
  | none, st, _, _, _ => (none, st)
  | some pool, _, sz, align, offset =>
      match gc_try_perm_alloc_pool (⟨pool, pool + GC_PERM_POOL_SIZE⟩ :
          PermState) sz align offset with
      | some (p, st'') => (some p, st'')
      | none => (none, ⟨pool, pool + GC_PERM_POOL_SIZE⟩)

/-- Source `jl_gc_perm_alloc_nolock(sz, zero, align, offset)`: requests above
`GC_PERM_POOL_LIMIT` go to `gc_perm_alloc_large`; otherwise try the pool;
on failure fall through to `perm_pool_retry`. -/
def jl_gc_perm_alloc_nolock (host : Nat → Nat) (mmapPool : Option Nat)
    (st : PermState) (sz : Nat) (zero : Bool) (align offset : Nat) :
    Option Nat × PermState :=
  if GC_PERM_POOL_LIMIT < sz then
    (gc_perm_alloc_large host sz zero align offset, st)
  else
    match gc_try_perm_alloc_pool st sz align offset with
    | some (p, st') => (some p, st')
    | none => perm_pool_retry mmapPool st sz align offset

/-! ### Finalizer execution order (`jl_gc_run_finalizers_in_list`,
gc.c lines 369–389)

The list passed in holds `(object, finalizer)` pairs in consecutive slots,
in registration order.  The function pushes copies of the first two slots
to the end, overwrites slots 0 and 1 with GC-frame metadata
(`jl_gc_push_arraylist`), then runs
```
for (size_t i = len-4; i >= 2; i -= 2)
    run_finalizer(ct, items[i], items[i + 1]);
run_finalizer(ct, items[len-2], items[len-1]);
```
Slot words are modelled opaquely as `Nat`. -/

/-- The countdown loop of `jl_gc_run_finalizers_in_list`: collect the
`(items[i], items[i+1])` pairs for `i = start, start-2, ..., 2` (the
`size_t` loop exits as soon as `i < 2`). -/
def run_finalizers_loop (items : List Nat) (i : Nat) : List (Nat × Nat) :=
  if h : 2 ≤ i then
    (items.getD i 0, items.getD (i + 1) 0) :: run_finalizers_loop items (i - 2)
  else []
termination_by i
decreasing_by omega

/-- Source `jl_gc_run_finalizers_in_list` (minus the lock and `ct->sticky`
bookkeeping): returns the `(object, finalizer)` pairs in the order they
are executed.  `m1`/`m2` are the two GC-frame metadata words written over
slots 0 and 1. -/
def jl_gc_run_finalizers_in_list (m1 m2 : Nat) (items : List Nat) :
    List (Nat × Nat) :=
  let items1 := items ++ [items.getD 0 0, items.getD 1 0]
  let items2 := (items1.set 0 m1).set 1 m2
  let len := items2.length
  run_finalizers_loop items2 (len - 4) ++
    [(items2.getD (len - 2) 0, items2.getD (len - 1) 0)]

/-- Lay out `(object, finalizer)` pairs into consecutive arraylist slots,
in registration order. -/
def finalizer_pairs_flat : List (Nat × Nat) → List Nat
  | [] => []
  | p :: ps => p.1 :: p.2 :: finalizer_pairs_flat ps

/-- Source `jl_gc_perm_alloc`: takes `gc_perm_lock` (not modelled; collection is
single-threaded here) and delegates to `jl_gc_perm_alloc_nolock`. -/
def jl_gc_perm_alloc (host : Nat → Nat) (mmapPool : Option Nat)
    (st : PermState) (sz : Nat) (zero : Bool) (align offset : Nat) :
    Option Nat × PermState :=
  jl_gc_perm_alloc_nolock host mmapPool st sz zero align offset

/-- The outcome of the walk body for a single cell, as a function of the
cell alone (the branch taken never depends on the accumulator). -/
def sweep_cell_out (sweep_full : Bool) (c : CellState) : Option Nat × Bool :=
  if ¬ gc_marked c.bits then (none, false)
  else if c.age ∨ c.bits = GC_OLD_MARKED then
    (some (if sweep_full ∨ c.bits = GC_MARKED then GC_OLD else c.bits), true)
  else (some GC_CLEAN, true)

/-- A marked cell that is neither aged nor `OLD_MARKED` is demoted; these
are the cells that set `has_young` during the walk. -/
def demotes_young (c : CellState) : Bool :=
  gc_marked c.bits && !(c.age || c.bits == GC_OLD_MARKED)

/-- The property C1 claims of the cell walk: every marked cell ends with
its age bit set; an aged or `OLD_MARKED` cell is promoted to `OLD` *in
full mode only*; any other marked cell is demoted `MARKED → CLEAN` and
sets `has_young`. -/
def sweep_marked_cell_claim : Prop :=
  ∀ (sweep_full : Bool) (cells : List CellState) (i : Nat) (c : CellState),
    cells[i]? = some c → gc_marked c.bits = true →
    ∃ bits' age',
      (sweep_page_walk sweep_full cells).swept[i]? = some (some bits', age') ∧
      age' = true ∧
      ((c.age = true ∨ c.bits = GC_OLD_MARKED) →
        (bits' = GC_OLD ↔ sweep_full = true)) ∧
      (c.age = false → c.bits ≠ GC_OLD_MARKED →
        bits' = GC_CLEAN ∧
        (sweep_page_walk sweep_full cells).has_young = true)

/-- The property C3 claims of `sweep_page`: in quick mode, a page with
surviving marked objects is skipped exactly when it has no young survivors
and its old count equals the count recorded at the previous full sweep. -/
def quick_skip_claim : Prop :=
  ∀ (prev_sweep_full : Bool) (pg : PageMeta), pg.has_marked = true →
    ((sweep_page false prev_sweep_full pg).1 = SweepAction.skipped ↔
      (pg.has_young = false ∧ pg.prev_nold = pg.nold))

/-- The property claimed of `jl_gc_queue_binding`: it appends the binding
to the calling thread's `rem_bindings` and tags the binding's header
`GC_OLD_MARKED` immediately. -/
def queue_binding_claim : Prop :=
  ∀ (rem : List Binding) (bnd : Binding),
    (jl_gc_queue_binding rem bnd).1 =
      rem ++ [(jl_gc_queue_binding rem bnd).2] ∧
    (jl_gc_queue_binding rem bnd).2.id = bnd.id ∧
    (jl_gc_queue_binding rem bnd).2.bits = GC_OLD_MARKED

/-- The property C8 claims: for `align` a power of two and
`offset < align`, every pointer `p` returned by `jl_gc_perm_alloc`
satisfies `(p + offset) % align = 0`. -/
def perm_alloc_align_claim : Prop :=
  ∀ (host : Nat → Nat) (mmapPool : Option Nat) (st : PermState) (sz : Nat)
    (zero : Bool) (k offset p : Nat),
    offset < 2 ^ k →
    (jl_gc_perm_alloc host mmapPool st sz zero (2 ^ k) offset).1 = some p →
    (p + offset) % 2 ^ k = 0

end GCSpec

namespace GCSpec

/-! ## Theorems -/

/-! ### Helper lemmas for the pool-page cell walk -/



theorem sweep_page_step_swept (sweep_full : Bool) (st : PageWalk)
    (c : CellState) :
    (sweep_page_step sweep_full st c).swept =
      st.swept ++ [sweep_cell_out sweep_full c] := by
  by_cases h1 : gc_marked c.bits
  · by_cases h2 : c.age ∨ c.bits = GC_OLD_MARKED <;>
      simp [sweep_page_step, sweep_cell_out, h1, h2]
  · simp [sweep_page_step, sweep_cell_out, h1]

theorem sweep_page_step_has_young (sweep_full : Bool) (st : PageWalk)
    (c : CellState) :
    (sweep_page_step sweep_full st c).has_young =
      (st.has_young || demotes_young c) := by
  by_cases h1 : gc_marked c.bits
  · by_cases h2 : c.age ∨ c.bits = GC_OLD_MARKED
    · have : (c.age || c.bits == GC_OLD_MARKED) = true := by
        rcases h2 with h | h <;> simp [h]
      simp [sweep_page_step, demotes_young, h1, h2, this]
    · have : (c.age || c.bits == GC_OLD_MARKED) = false := by
        push_neg at h2
        simp [h2.1, h2.2]
      simp [sweep_page_step, demotes_young, h1, h2, this]
  · simp [sweep_page_step, demotes_young, h1]

theorem sweep_page_walk_foldl_swept (sweep_full : Bool)
    (cells : List CellState) (st : PageWalk) :
    (cells.foldl (sweep_page_step sweep_full) st).swept =
      st.swept ++ cells.map (sweep_cell_out sweep_full) := by
  induction cells generalizing st with
  | nil => simp
  | cons c rest ih =>
      rw [List.foldl_cons, ih, List.map_cons]
      rw [sweep_page_step_swept]
      simp

theorem sweep_page_walk_foldl_has_young (sweep_full : Bool)
    (cells : List CellState) (st : PageWalk) :
    (cells.foldl (sweep_page_step sweep_full) st).has_young =
      (st.has_young || cells.any demotes_young) := by
  induction cells generalizing st with
  | nil => simp
  | cons c rest ih =>
      rw [List.foldl_cons, ih, List.any_cons]
      rw [sweep_page_step_has_young]
      simp [Bool.or_assoc]

theorem sweep_page_walk_swept (sweep_full : Bool) (cells : List CellState) :
    (sweep_page_walk sweep_full cells).swept =
      cells.map (sweep_cell_out sweep_full) := by
  rw [sweep_page_walk, sweep_page_walk_foldl_swept]
  rfl

theorem sweep_page_walk_has_young (sweep_full : Bool)
    (cells : List CellState) :
    (sweep_page_walk sweep_full cells).has_young = cells.any demotes_young := by
  rw [sweep_page_walk, sweep_page_walk_foldl_has_young]
  rfl

/-! ### C1: fate of a marked cell during the walk -/


/-- C1, counterexample. In a quick sweep (`sweep_full = false`), a
`MARKED` cell whose age bit is set *is* promoted to `OLD` (the source
promotes when `sweep_full || bits == GC_MARKED`), so promotion to `OLD` is
not confined to full mode. -/
theorem sweep_marked_cell_claim_false : ¬ sweep_marked_cell_claim := by
  intro h
  obtain ⟨bits', age', hs, -, hold, -⟩ :=
    h false [⟨GC_MARKED, true⟩] 0 ⟨GC_MARKED, true⟩ rfl rfl
  have hval : (sweep_page_walk false [⟨GC_MARKED, true⟩]).swept[0]? =
      some (some GC_OLD, true) := rfl
  rw [hval] at hs
  have hb : bits' = GC_OLD := by
    simpa using congrArg (fun o => (o.getD (none, false)).1) hs.symm
  exact absurd ((hold (Or.inl rfl)).mp hb) (by simp)

/-- C1, amended. For every marked cell of the walked page: its age bit
is set afterwards; if its age bit was set or its bits are `OLD_MARKED`, it
is promoted to `OLD` when the sweep is full *or* the cell is `MARKED`
(so a quick sweep also promotes aged `MARKED` cells), while a quick sweep
leaves an `OLD_MARKED` cell as `OLD_MARKED`; otherwise the cell is demoted
`MARKED → CLEAN` and the page's `has_young` flag is set. -/
theorem sweep_page_marked_cell (sweep_full : Bool) (cells : List CellState)
    (i : Nat) (c : CellState)
    (hc : cells[i]? = some c) (hm : gc_marked c.bits = true) :
    ∃ bits',
      (sweep_page_walk sweep_full cells).swept[i]? =
        some (some bits', true) ∧
      ((c.age = true ∨ c.bits = GC_OLD_MARKED) →
        ((sweep_full = true ∨ c.bits = GC_MARKED) → bits' = GC_OLD) ∧
        (sweep_full = false → c.bits = GC_OLD_MARKED →
          bits' = GC_OLD_MARKED)) ∧
      (c.age = false → c.bits ≠ GC_OLD_MARKED →
        bits' = GC_CLEAN ∧
        (sweep_page_walk sweep_full cells).has_young = true) := by
  have hmem : c ∈ cells := by
    have := List.getElem?_eq_some_iff.mp hc
    rcases this with ⟨hlt, hEq⟩
    exact hEq ▸ List.getElem_mem hlt
  have hswept : (sweep_page_walk sweep_full cells).swept[i]? =
      some (sweep_cell_out sweep_full c) := by
    rw [sweep_page_walk_swept, List.getElem?_map, hc]
    rfl
  by_cases hold : c.age ∨ c.bits = GC_OLD_MARKED
  · refine ⟨if sweep_full ∨ c.bits = GC_MARKED then GC_OLD else c.bits,
      ?_, ?_, ?_⟩
    · rw [hswept, sweep_cell_out]
      simp [hm, hold]
    · intro _
      constructor
      · intro hp
        have : sweep_full = true ∨ c.bits = GC_MARKED := hp
        simp [this]
      · intro hq hom
        have h1 : ¬ (sweep_full = true) := by simp [hq]
        have h2 : ¬ (c.bits = GC_MARKED) := by
          rw [hom]; decide
        simp [h1, h2, hom]
        decide
    · intro ha hom
      exfalso
      rcases hold with h | h
      · rw [ha] at h; cases h
      · exact hom h
  · push_neg at hold
    refine ⟨GC_CLEAN, ?_, ?_, ?_⟩
    · rw [hswept, sweep_cell_out]
      have : ¬ (c.age ∨ c.bits = GC_OLD_MARKED) := by
        push_neg
        exact ⟨fun hh => by rw [hh] at hold; exact hold.1 rfl, hold.2⟩
      simp [hm, this]
    · intro hcon
      exfalso
      rcases hcon with h | h
      · rw [h] at hold; exact hold.1 rfl
      · exact hold.2 h
    · intro _ _
      refine ⟨rfl, ?_⟩
      rw [sweep_page_walk_has_young]
      refine List.any_eq_true.mpr ⟨c, hmem, ?_⟩
      have ha : c.age = false := by
        cases hca : c.age
        · rfl
        · exact absurd rfl (hca ▸ hold.1)
      simp [demotes_young, hm, ha, hold.2]

/-- Witness for C1 (amended): a full-sweep walk of a two-cell page
(an aged `OLD_MARKED` cell and an unaged `MARKED` cell) promotes the first
to `OLD` and demotes the second to `CLEAN`, setting `has_young`. -/
theorem sweep_page_marked_cell_witness :
    (∃ bits',
      (sweep_page_walk true
        [⟨GC_OLD_MARKED, true⟩, ⟨GC_MARKED, false⟩]).swept[0]? =
        some (some bits', true) ∧
      (((⟨GC_OLD_MARKED, true⟩ : CellState).age = true ∨
          (⟨GC_OLD_MARKED, true⟩ : CellState).bits = GC_OLD_MARKED) →
        ((true = true ∨ (⟨GC_OLD_MARKED, true⟩ : CellState).bits = GC_MARKED) →
          bits' = GC_OLD) ∧
        (true = false → (⟨GC_OLD_MARKED, true⟩ : CellState).bits = GC_OLD_MARKED →
          bits' = GC_OLD_MARKED)) ∧
      ((⟨GC_OLD_MARKED, true⟩ : CellState).age = false →
        (⟨GC_OLD_MARKED, true⟩ : CellState).bits ≠ GC_OLD_MARKED →
        bits' = GC_CLEAN ∧
        (sweep_page_walk true
          [⟨GC_OLD_MARKED, true⟩, ⟨GC_MARKED, false⟩]).has_young = true)) ∧
    (∃ bits',
      (sweep_page_walk true
        [⟨GC_OLD_MARKED, true⟩, ⟨GC_MARKED, false⟩]).swept[1]? =
        some (some bits', true) ∧
      (((⟨GC_MARKED, false⟩ : CellState).age = true ∨
          (⟨GC_MARKED, false⟩ : CellState).bits = GC_OLD_MARKED) →
        ((true = true ∨ (⟨GC_MARKED, false⟩ : CellState).bits = GC_MARKED) →
          bits' = GC_OLD) ∧
        (true = false → (⟨GC_MARKED, false⟩ : CellState).bits = GC_OLD_MARKED →
          bits' = GC_OLD_MARKED)) ∧
      ((⟨GC_MARKED, false⟩ : CellState).age = false →
        (⟨GC_MARKED, false⟩ : CellState).bits ≠ GC_OLD_MARKED →
        bits' = GC_CLEAN ∧
        (sweep_page_walk true
          [⟨GC_OLD_MARKED, true⟩, ⟨GC_MARKED, false⟩]).has_young = true)) := by
  exact ⟨sweep_page_marked_cell true
      [⟨GC_OLD_MARKED, true⟩, ⟨GC_MARKED, false⟩] 0 ⟨GC_OLD_MARKED, true⟩
      rfl rfl,
    sweep_page_marked_cell true
      [⟨GC_OLD_MARKED, true⟩, ⟨GC_MARKED, false⟩] 1 ⟨GC_MARKED, false⟩
      rfl rfl⟩

/-! ### C3: the quick-sweep page-skip condition -/


/-- C3, counterexample. When the previous sweep was itself a quick one
(`prev_sweep_full = 0`), the source skips the page regardless of whether
`prev_nold` equals `nold`: a page with `prev_nold = 0`, `nold = 1` and no
young survivors is skipped, refuting the "exactly when" of the claim. -/
theorem quick_skip_claim_false : ¬ quick_skip_claim := by
  intro h
  have := ((h false ⟨true, false, 1, 0, 0, []⟩ rfl).mp rfl).2
  simp at this

/-- C3, amended. In quick mode, a page with surviving marked objects is
skipped (its freelist boundary rewired from metadata, cells unwalked and
metadata unchanged) exactly when it has no young survivors *and* either
the previous sweep was not a full sweep or its old count equals the count
recorded at that previous full sweep. -/
theorem quick_sweep_skip_iff (prev_sweep_full : Bool) (pg : PageMeta)
    (hm : pg.has_marked = true) :
    ((sweep_page false prev_sweep_full pg).1 = SweepAction.skipped ↔
      (pg.has_young = false ∧
        (prev_sweep_full = false ∨ pg.prev_nold = pg.nold))) ∧
    ((sweep_page false prev_sweep_full pg).1 = SweepAction.skipped →
      (sweep_page false prev_sweep_full pg).2.1 = pg ∧
      (sweep_page false prev_sweep_full pg).2.2.swept = []) := by
  cases hy : pg.has_young <;> cases hp : prev_sweep_full <;>
    by_cases hn : pg.prev_nold = pg.nold <;>
      simp_all [sweep_page, hm, hy, hn]

/-- Witness for C3 (amended): a quick sweep after a full sweep skips a
marked page with no young survivors whose old count matches, and leaves its
metadata unchanged. -/
theorem quick_sweep_skip_iff_witness :
    (((sweep_page false true ⟨true, false, 2, 2, 0, []⟩).1 =
        SweepAction.skipped ↔
      ((⟨true, false, 2, 2, 0, []⟩ : PageMeta).has_young = false ∧
        (true = false ∨
          (⟨true, false, 2, 2, 0, []⟩ : PageMeta).prev_nold =
            (⟨true, false, 2, 2, 0, []⟩ : PageMeta).nold))) ∧
    ((sweep_page false true ⟨true, false, 2, 2, 0, []⟩).1 =
        SweepAction.skipped →
      (sweep_page false true ⟨true, false, 2, 2, 0, []⟩).2.1 =
        ⟨true, false, 2, 2, 0, []⟩ ∧
      (sweep_page false true ⟨true, false, 2, 2, 0, []⟩).2.2.swept = [])) := by
  exact quick_sweep_skip_iff true ⟨true, false, 2, 2, 0, []⟩ rfl

/-! ### Helper lemmas for callback lists -/

theorem register_of_mem {F : Type} [DecidableEq F] {l : List F} {f : F}
    (h : f ∈ l) : jl_gc_register_callback l f = l := by
  induction l with
  | nil => cases h
  | cons a rest ih =>
      rw [jl_gc_register_callback]
      rcases List.mem_cons.mp h with h1 | h2
      · simp [h1.symm]
      · by_cases ha : a = f <;> simp [ha, ih h2]

theorem register_of_not_mem {F : Type} [DecidableEq F] {l : List F} {f : F}
    (h : f ∉ l) : jl_gc_register_callback l f = l ++ [f] := by
  induction l with
  | nil => rfl
  | cons a rest ih =>
      rw [jl_gc_register_callback]
      have ha : a ≠ f := fun hh => h (hh ▸ List.mem_cons_self a rest)
      have hr : f ∉ rest := fun hh => h (List.mem_cons_of_mem a hh)
      simp [ha, ih hr]

theorem set_cb_enableN_of_mem {F : Type} [DecidableEq F] {l : List F} {f : F}
    (h : f ∈ l) (N : Nat) : set_cb_enableN l f N = l := by
  induction N with
  | zero => rfl
  | succ n ih => rw [set_cb_enableN, ih, jl_gc_set_cb]; simp [register_of_mem h]

theorem set_cb_enableN_of_not_mem {F : Type} [DecidableEq F] {l : List F}
    {f : F} (h : f ∉ l) {N : Nat} (hN : 1 ≤ N) :
    set_cb_enableN l f N = l ++ [f] := by
  induction N with
  | zero => cases hN
  | succ n ih =>
      rcases Nat.eq_zero_or_pos n with h0 | h1
      · subst h0
        rw [set_cb_enableN, set_cb_enableN, jl_gc_set_cb]
        simp [register_of_not_mem h]
      · rw [set_cb_enableN, ih h1, jl_gc_set_cb]
        simp [register_of_mem (List.mem_append_right l (List.mem_singleton.mpr rfl))]

theorem deregister_removes_first {F : Type} [DecidableEq F] (l1 l2 : List F)
    (f : F) (hf : f ∉ l1) :
    jl_gc_deregister_callback (l1 ++ f :: l2) f = l1 ++ l2 := by
  induction l1 with
  | nil => simp [jl_gc_deregister_callback]
  | cons a rest ih =>
      have ha : a ≠ f := fun hh => hf (hh ▸ List.mem_cons_self a rest)
      have hr : f ∉ rest := fun hh => hf (List.mem_cons_of_mem a hh)
      simp only [List.cons_append, jl_gc_deregister_callback, if_neg ha]
      rw [← List.cons_append]
      simp only [List.append_eq] at ih ⊢
      rw [ih hr]
      simp

/-! ### C6: idempotent registration, first-match deregistration -/

/-- C6. For any callback list `l` holding at most one registration of
`f` (the invariant every list reachable through `set_cb_X` maintains),
calling `set_cb_X(f, true)` `N ≥ 1` times leaves exactly one registration
of `f` — indeed it leaves the list unchanged apart from at most one
appended copy of `f` — and `set_cb_X(f, false)` on a list whose first
occurrence of `f` sits between `l1` and `l2` removes exactly that entry,
leaving `l1 ++ l2`. -/
theorem set_cb_idempotent_and_dereg_first_match {F : Type} [DecidableEq F]
    (l l1 l2 : List F) (f : F) (N : Nat)
    (hc : l.count f ≤ 1) (hN : 1 ≤ N) (hf : f ∉ l1) :
    (set_cb_enableN l f N).count f = 1 ∧
    (set_cb_enableN l f N = l ∨ set_cb_enableN l f N = l ++ [f]) ∧
    jl_gc_set_cb (l1 ++ f :: l2) f false = l1 ++ l2 := by
  refine ⟨?_, ?_, ?_⟩
  · by_cases hm : f ∈ l
    · rw [set_cb_enableN_of_mem hm]
      exact Nat.le_antisymm hc (List.count_pos_iff.mpr hm)
    · rw [set_cb_enableN_of_not_mem hm hN]
      simp [List.count_append, List.count_eq_zero.mpr hm]
  · by_cases hm : f ∈ l
    · exact Or.inl (set_cb_enableN_of_mem hm N)
    · exact Or.inr (set_cb_enableN_of_not_mem hm hN)
  · rw [jl_gc_set_cb]
    simp [deregister_removes_first l1 l2 f hf]

/-- Witness for C6: starting from the list `[5]`, enabling callback `7`
twice registers it exactly once, and disabling `7` on `[5, 7, 9]` removes
the single entry `7`. -/
theorem set_cb_idempotent_and_dereg_first_match_witness :
    (set_cb_enableN [5] 7 2).count 7 = 1 ∧
    (set_cb_enableN [5] 7 2 = [5] ∨ set_cb_enableN [5] 7 2 = [5] ++ [7]) ∧
    jl_gc_set_cb ([5] ++ 7 :: [9]) 7 false = [5] ++ [9] := by
  exact set_cb_idempotent_and_dereg_first_match [5] [5] [9] 7 2
    (by decide) (by decide) (by decide)

/-! ### C2: the binding write barrier -/


/-- C2, counterexample. Queuing the binding `⟨0, GC_OLD⟩` tags its
header `GC_MARKED = 1`, not `GC_OLD_MARKED = 3`: the immediate tag written
by the barrier is `GC_MARKED`. -/
theorem queue_binding_claim_false : ¬ queue_binding_claim := by
  intro h
  have := (h [] ⟨0, GC_OLD⟩).2.2
  simp [jl_gc_queue_binding, GC_MARKED, GC_OLD_MARKED] at this

/-- C2, amended. `jl_gc_queue_binding` appends the binding to the
calling thread's `rem_bindings` and tags its header `GC_MARKED`; the
`GC_OLD_MARKED` tag is applied to every remembered binding only at the
start of the next collection, by `jl_gc_premark`. -/
theorem queue_binding_marks_and_premark_promotes
    (rem : List Binding) (bnd : Binding) (h : ThreadHeap) :
    (jl_gc_queue_binding rem bnd).1 =
      rem ++ [(jl_gc_queue_binding rem bnd).2] ∧
    (jl_gc_queue_binding rem bnd).2.id = bnd.id ∧
    (jl_gc_queue_binding rem bnd).2.bits = GC_MARKED ∧
    (jl_gc_premark h).rem_bindings.map Binding.id =
      h.rem_bindings.map Binding.id ∧
    ∀ b ∈ (jl_gc_premark h).rem_bindings, b.bits = GC_OLD_MARKED := by
  refine ⟨rfl, rfl, rfl, by simp [jl_gc_premark], ?_⟩
  intro b hb
  simp only [jl_gc_premark, List.mem_map] at hb
  rcases hb with ⟨a, _, rfl⟩
  rfl

/-! ### C9: `jl_gc_set_max_memory` -/

/-- C9. `jl_gc_set_max_memory(max_mem)` updates the stored soft memory
cap exactly when `0 < max_mem < 2^(8*sizeof(memsize_t)-1)`; for
`max_mem = 0` or any value at or above that bound the stored cap is left
unchanged (the function has no error path). -/
theorem set_max_memory_updates_iff_in_range (s cur m : Nat) :
    (0 < m ∧ m < 2 ^ (s * 8 - 1) →
      jl_gc_set_max_memory s cur m = m) ∧
    (¬ (0 < m ∧ m < 2 ^ (s * 8 - 1)) →
      jl_gc_set_max_memory s cur m = cur) := by
  constructor <;> intro h <;> simp [jl_gc_set_max_memory, h]

/-- Witness for C9: on a 64-bit build (`sizeof(memsize_t) = 8`), setting
`max_mem = 1000` updates the cap, while `max_mem = 0` and `max_mem = 2^63`
leave it at its previous value `7`. -/
theorem set_max_memory_updates_iff_in_range_witness :
    jl_gc_set_max_memory 8 7 1000 = 1000 ∧
    jl_gc_set_max_memory 8 7 0 = 7 ∧
    jl_gc_set_max_memory 8 7 (2 ^ 63) = 7 := by
  refine ⟨(set_max_memory_updates_iff_in_range 8 7 1000).1 (by norm_num),
    (set_max_memory_updates_iff_in_range 8 7 0).2 (by norm_num),
    (set_max_memory_updates_iff_in_range 8 7 (2 ^ 63)).2 (by norm_num)⟩

/-! ### C4: `clear_weak_refs` -/

/-- C4. After the mark phase, `clear_weak_refs` visits every weak
reference of every thread's weak-reference list: if the target's header is
unmarked, the target slot is set to the `nothing` sentinel; if it is
marked, the weak reference is left completely unchanged.  The shape of
the lists (threads, order, lengths) is untouched. -/
theorem clear_weak_refs_spec (markedOf : JLValue → Bool)
    (threads : List (Option (List WeakRef)))
    (i n : Nat) (l : List WeakRef) (wr : WeakRef)
    (hi : threads[i]? = some (some l)) (hn : l[n]? = some wr) :
    ∃ l', (clear_weak_refs markedOf threads)[i]? = some (some l') ∧
      l'.length = l.length ∧
      (markedOf wr.value = false →
        l'[n]? = some { wr with value := JLValue.nothingSentinel }) ∧
      (markedOf wr.value = true → l'[n]? = some wr) := by
  refine ⟨l.map (clear_weak_ref markedOf), ?_, by simp, ?_, ?_⟩
  · rw [clear_weak_refs, List.getElem?_map, hi]; rfl
  · intro hm
    rw [List.getElem?_map, hn]
    simp [clear_weak_ref, hm]
  · intro hm
    rw [List.getElem?_map, hn]
    simp [clear_weak_ref, hm]

/-- Witness for C4: one thread holding one weak reference whose target is
unmarked under a marking where nothing is marked: its slot is cleared. -/
theorem clear_weak_refs_spec_witness :
    ∃ l', (clear_weak_refs (fun _ => false)
        [some [⟨GC_MARKED, JLValue.obj 4⟩]])[0]? = some (some l') ∧
      l'.length = 1 ∧
      ((fun (_ : JLValue) => false) (JLValue.obj 4) = false →
        l'[0]? = some ⟨GC_MARKED, JLValue.nothingSentinel⟩) ∧
      ((fun (_ : JLValue) => false) (JLValue.obj 4) = true →
        l'[0]? = some ⟨GC_MARKED, JLValue.obj 4⟩) := by
  exact clear_weak_refs_spec (fun _ => false)
    [some [⟨GC_MARKED, JLValue.obj 4⟩]] 0 0 [⟨GC_MARKED, JLValue.obj 4⟩]
    ⟨GC_MARKED, JLValue.obj 4⟩ rfl rfl

/-! ### C7: big-object allocation failure paths -/

/-- C7. In `jl_gc_big_alloc_inner`, if rounding `sz + offs` up to
cache-line alignment wraps around (the aligned size is smaller than the
request), the memory exception is raised before the host allocator is ever
invoked; and if the host aligned allocator returns `NULL`, the memory
exception is raised after the (single) host call. -/
theorem big_alloc_overflow_and_oom (host : Nat → Option Nat) (offs sz : Nat) :
    (llt_align64 ((sz + offs) % 2 ^ 64) JL_CACHE_BYTE_ALIGNMENT < sz →
      jl_gc_big_alloc_inner host offs sz = (false, none)) ∧
    (¬ llt_align64 ((sz + offs) % 2 ^ 64) JL_CACHE_BYTE_ALIGNMENT < sz →
      host (llt_align64 ((sz + offs) % 2 ^ 64) JL_CACHE_BYTE_ALIGNMENT) =
        none →
      jl_gc_big_alloc_inner host offs sz = (true, none)) := by
  constructor
  · intro h
    simp only [jl_gc_big_alloc_inner]
    rw [if_pos h]
  · intro h hh
    simp only [jl_gc_big_alloc_inner]
    rw [if_neg h, hh]

/-- Witness for C7: with `offs = 64` (the `bigval_t` header), the request
`sz = 2^64 - 1` overflows the alignment round-up and throws without
calling the host, while `sz = 100` against an always-`NULL` host throws
after the host call. -/
theorem big_alloc_overflow_and_oom_witness :
    jl_gc_big_alloc_inner (fun _ => some 4096) 64 (2 ^ 64 - 1) =
      (false, none) ∧
    jl_gc_big_alloc_inner (fun _ => none) 64 100 = (true, none) := by
  refine ⟨(big_alloc_overflow_and_oom (fun _ => some 4096) 64
      (2 ^ 64 - 1)).1 ?_,
    (big_alloc_overflow_and_oom (fun _ => none) 64 100).2 ?_ rfl⟩
  · norm_num [llt_align64, JL_CACHE_BYTE_ALIGNMENT]
  · norm_num [llt_align64, JL_CACHE_BYTE_ALIGNMENT]

/-! ### C8: permanent allocation dispatch and alignment -/

theorem llt_align64_bounds (x a : Nat) (ha : 1 ≤ a) (h : x + a ≤ 2 ^ 64) :
    x ≤ llt_align64 x a ∧ llt_align64 x a % a = 0 := by
  have hy : (x + a - 1) % 2 ^ 64 = x + a - 1 := Nat.mod_eq_of_lt (by omega)
  rw [llt_align64, hy]
  constructor
  · have h3 := Nat.div_add_mod (x + a - 1) a
    have h2 : (x + a - 1) % a < a := Nat.mod_lt _ (by omega)
    have h4 : x ≤ a * ((x + a - 1) / a) := by omega
    calc x ≤ a * ((x + a - 1) / a) := h4
      _ = (x + a - 1) / a * a := Nat.mul_comm _ _
  · exact Nat.mul_mod_left _ _


/-- C8, counterexample. A large request (`sz = 20481 > 20 KiB`) with
`align = 16`, `offset = 4` against a host `malloc` returning base `16`
yields `p = 20`: `(p + offset) % align = 24 % 16 = 8 ≠ 0`.  The host
(large) path aligns `p` so that `p % align = offset`, not
`(p + offset) % align = 0`. -/
theorem perm_alloc_align_claim_false : ¬ perm_alloc_align_claim := by
  intro h
  have := h (fun _ => 16) none ⟨0, 0⟩ 20481 false 4 4 20 (by norm_num) ?_
  · norm_num at this
  · show (jl_gc_perm_alloc (fun _ => 16) none ⟨0, 0⟩ 20481 false
      (2 ^ 4) 4).1 = some 20
    norm_num [jl_gc_perm_alloc, jl_gc_perm_alloc_nolock, gc_perm_alloc_large,
      GC_PERM_POOL_LIMIT]

/-- C8, amended. For `align = 2^k` (k ≤ 64) and `offset < align`:
requests above the 20 KiB pool limit are served by the host allocator and
leave the pool state untouched, and the returned pointer satisfies
`p % align = offset` (equivalently `(p - offset) % align = 0`); requests
at or below the limit bump-allocate from the 2 MiB permanent pool (the
new bump pointer is `p + sz`) and the returned pointer satisfies
`(p + offset) % align = 0`.  The two alignment conventions agree only
when `align` divides `2 * offset`. -/
theorem perm_alloc_dispatch_and_alignment (host : Nat → Nat)
    (mmapPool : Option Nat) (st : PermState) (sz : Nat) (zero : Bool)
    (k offset p : Nat) (hk : k ≤ 64) (hoff : offset < 2 ^ k)
    (hhost : ∀ s, host s < 2 ^ 64)
    (hpool : st.gc_perm_pool + offset + 2 ^ k ≤ 2 ^ 64)
    (hmmap : ∀ q, mmapPool = some q → q + offset + 2 ^ k ≤ 2 ^ 64) :
    (GC_PERM_POOL_LIMIT < sz →
      (jl_gc_perm_alloc host mmapPool st sz zero (2 ^ k) offset).2 = st ∧
      ((jl_gc_perm_alloc host mmapPool st sz zero (2 ^ k) offset).1 =
          some p →
        p % 2 ^ k = offset % 2 ^ k)) ∧
    (sz ≤ GC_PERM_POOL_LIMIT →
      (jl_gc_perm_alloc host mmapPool st sz zero (2 ^ k) offset).1 =
          some p →
      (p + offset) % 2 ^ k = 0 ∧
      (jl_gc_perm_alloc host mmapPool st sz zero
          (2 ^ k) offset).2.gc_perm_pool = p + sz) := by
  have hdvd : (2 : Nat) ^ k ∣ 2 ^ 64 := pow_dvd_pow 2 hk
  have hpos : 1 ≤ (2 : Nat) ^ k := Nat.one_le_two_pow
  constructor
  · intro hbig
    rw [jl_gc_perm_alloc, jl_gc_perm_alloc_nolock.eq_def, if_pos hbig]
    refine ⟨rfl, ?_⟩
    intro hp
    rw [gc_perm_alloc_large] at hp
    set szadj := if 1 < 2 ^ k ∧ (offset ≠ 0 ∨ 16 < 2 ^ k) then
        sz + 2 ^ k - 1
      else sz with hsz
    by_cases hb : host szadj = 0
    · simp only [hb, if_pos rfl] at hp
      cases hp
    · simp only [if_neg hb] at hp
      set base := host szadj with hbase
      have hblt : base < 2 ^ 64 := hhost _
      have hbmod : base % 2 ^ 64 = base := Nat.mod_eq_of_lt hblt
      have hp' : p = (base +
          ((offset + 2 ^ 64 - base % 2 ^ 64) % 2 ^ 64) % 2 ^ k) % 2 ^ 64 :=
        (Option.some_injective _ hp).symm
      rw [hp', hbmod, Nat.mod_mod_of_dvd _ hdvd, Nat.mod_mod_of_dvd _ hdvd,
        Nat.add_mod_mod]
      have h1 : base + (offset + 2 ^ 64 - base) = offset + 2 ^ 64 := by
        omega
      rw [h1]
      have h2 : (2 : Nat) ^ 64 = 2 ^ k * 2 ^ (64 - k) := by
        rw [← pow_add]
        congr 1
        omega
      rw [h2, Nat.add_mul_mod_self_left]
  · intro hsmall hp
    rw [jl_gc_perm_alloc, jl_gc_perm_alloc_nolock.eq_def,
      if_neg (by omega : ¬ GC_PERM_POOL_LIMIT < sz)] at hp ⊢
    have hpoolcase : ∀ (ps : PermState),
        ps.gc_perm_pool + offset + 2 ^ k ≤ 2 ^ 64 →
        ∀ q st', gc_try_perm_alloc_pool ps sz (2 ^ k) offset =
          some (q, st') →
        (q + offset) % 2 ^ k = 0 ∧ st'.gc_perm_pool = q + sz := by
      intro ps hps q st' hq
      simp only [gc_try_perm_alloc_pool] at hq
      by_cases hend : ps.gc_perm_end <
          llt_align64 (ps.gc_perm_pool + offset) (2 ^ k) - offset + sz
      · rw [if_pos hend] at hq
        exact Option.noConfusion hq
      · rw [if_neg hend] at hq
        have hq' := Option.some_injective _ hq
        have hq1 : llt_align64 (ps.gc_perm_pool + offset) (2 ^ k) - offset
            = q := congrArg Prod.fst hq'
        have hq2 : st'.gc_perm_pool =
            llt_align64 (ps.gc_perm_pool + offset) (2 ^ k) - offset + sz :=
          (congrArg (fun x => x.2.gc_perm_pool) hq').symm
        obtain ⟨hle, hmod⟩ :=
          llt_align64_bounds (ps.gc_perm_pool + offset) (2 ^ k) hpos hps
        have hoffle : offset ≤ llt_align64 (ps.gc_perm_pool + offset)
            (2 ^ k) := le_trans (Nat.le_add_left _ _) hle
        refine ⟨?_, ?_⟩
        · rw [← hq1, Nat.sub_add_cancel hoffle]
          exact hmod
        · rw [hq2, hq1]
    rcases h1 : gc_try_perm_alloc_pool st sz (2 ^ k) offset with - | ⟨q, st'⟩
    · rw [h1] at hp
      rcases hmm : mmapPool with - | pool
      · rw [hmm, perm_pool_retry] at hp
        exact Option.noConfusion hp
      · rw [hmm, perm_pool_retry] at hp
        rw [perm_pool_retry]
        have hps : (⟨pool, pool + GC_PERM_POOL_SIZE⟩ :
            PermState).gc_perm_pool + offset + 2 ^ k ≤ 2 ^ 64 :=
          hmmap pool hmm
        rcases h2 : gc_try_perm_alloc_pool
            (⟨pool, pool + GC_PERM_POOL_SIZE⟩ : PermState) sz (2 ^ k) offset
          with - | ⟨q2, st2⟩
        · rw [h2] at hp
          exact Option.noConfusion hp
        · rw [h2] at hp
          have := hpoolcase _ hps q2 st2 h2
          have hq2p : q2 = p := Option.some_injective _ hp
          exact ⟨hq2p ▸ this.1, hq2p ▸ this.2⟩
    · rw [h1] at hp
      have := hpoolcase st hpool q st' h1
      have hqp : q = p := Option.some_injective _ hp
      exact ⟨hqp ▸ this.1, hqp ▸ this.2⟩

/-- Witness for C8 (amended): `align = 16`, `offset = 4`; the large
request `sz = 20481` returns `p = 20` with `p % 16 = 4 = offset`, and the
small request `sz = 64` from a fresh pool at `2^20` returns
`p = 2^20 + 12` with `(p + 4) % 16 = 0` and bump pointer `p + 64`. -/
theorem perm_alloc_dispatch_and_alignment_witness :
    (GC_PERM_POOL_LIMIT < 20481 →
      (jl_gc_perm_alloc (fun _ => 16) (some (2 ^ 20)) ⟨0, 0⟩ 20481 false
        (2 ^ 4) 4).2 = (⟨0, 0⟩ : PermState) ∧
      ((jl_gc_perm_alloc (fun _ => 16) (some (2 ^ 20)) ⟨0, 0⟩ 20481 false
          (2 ^ 4) 4).1 = some 20 →
        20 % 2 ^ 4 = 4 % 2 ^ 4)) ∧
    (64 ≤ GC_PERM_POOL_LIMIT →
      (jl_gc_perm_alloc (fun _ => 16) (some (2 ^ 20)) ⟨0, 0⟩ 64 false
          (2 ^ 4) 4).1 = some (2 ^ 20 + 12) →
      (2 ^ 20 + 12 + 4) % 2 ^ 4 = 0 ∧
      (jl_gc_perm_alloc (fun _ => 16) (some (2 ^ 20)) ⟨0, 0⟩ 64 false
          (2 ^ 4) 4).2.gc_perm_pool = 2 ^ 20 + 12 + 64) := by
  refine ⟨(perm_alloc_dispatch_and_alignment (fun _ => 16) (some (2 ^ 20))
      ⟨0, 0⟩ 20481 false 4 4 20 (by norm_num) (by norm_num)
      (fun _ => by norm_num) (by norm_num)
      (fun q hq => by cases hq; norm_num)).1,
    (perm_alloc_dispatch_and_alignment (fun _ => 16) (some (2 ^ 20))
      ⟨0, 0⟩ 64 false 4 4 (2 ^ 20 + 12) (by norm_num) (by norm_num)
      (fun _ => by norm_num) (by norm_num)
      (fun q hq => by cases hq; norm_num)).2⟩

/-! ### C5: finalizers run in reverse registration order -/

theorem finalizer_pairs_flat_append (ps : List (Nat × Nat)) (q : Nat × Nat) :
    finalizer_pairs_flat (ps ++ [q]) =
      finalizer_pairs_flat ps ++ [q.1, q.2] := by
  induction ps with
  | nil => rfl
  | cons p ps ih => simp [finalizer_pairs_flat, ih]

theorem finalizer_pairs_flat_length (ps : List (Nat × Nat)) :
    (finalizer_pairs_flat ps).length = 2 * ps.length := by
  induction ps with
  | nil => rfl
  | cons p ps ih =>
      simp [finalizer_pairs_flat, ih]
      omega

theorem getD_at_boundary (X : List Nat) (a b : Nat) (tail : List Nat) :
    (X ++ a :: b :: tail).getD X.length 0 = a ∧
    (X ++ a :: b :: tail).getD (X.length + 1) 0 = b := by
  constructor
  · rw [List.getD_append_right _ _ _ _ le_rfl, Nat.sub_self]
    rfl
  · rw [List.getD_append_right _ _ _ _ (Nat.le_succ _)]
    have h : X.length + 1 - X.length = 1 := by omega
    rw [h]
    rfl

theorem run_finalizers_loop_flat (x y : Nat) (ps : List (Nat × Nat)) :
    ∀ tail : List Nat,
      run_finalizers_loop (x :: y :: (finalizer_pairs_flat ps ++ tail))
        (2 * ps.length) = ps.reverse := by
  induction ps using List.reverseRecOn with
  | nil =>
      intro tail
      rw [run_finalizers_loop]
      simp
  | append_singleton rs r ih =>
      intro tail
      have hlen : 2 * (rs ++ [r]).length = 2 * rs.length + 2 := by
        simp
        omega
      have hflat := finalizer_pairs_flat_append rs r
      have hfl : (finalizer_pairs_flat rs).length = 2 * rs.length :=
        finalizer_pairs_flat_length rs
      rw [hlen, hflat, run_finalizers_loop, dif_pos (by omega : 2 ≤ 2 * rs.length + 2)]
      have hassoc : (finalizer_pairs_flat rs ++ [r.1, r.2]) ++ tail =
          finalizer_pairs_flat rs ++ (r.1 :: r.2 :: tail) := by
        simp
      rw [hassoc]
      have hcons2 : ∀ (l : List Nat) (n : Nat),
          (x :: y :: l).getD (n + 2) 0 = l.getD n 0 := fun l n => rfl
      have h1 : (x :: y :: (finalizer_pairs_flat rs ++ (r.1 :: r.2 :: tail))).getD
          (2 * rs.length + 2) 0 = r.1 := by
        rw [hcons2, ← hfl]
        exact (getD_at_boundary _ _ _ _).1
      have h2 : (x :: y :: (finalizer_pairs_flat rs ++ (r.1 :: r.2 :: tail))).getD
          (2 * rs.length + 2 + 1) 0 = r.2 := by
        have : 2 * rs.length + 2 + 1 = (2 * rs.length + 1) + 2 := by omega
        rw [this, hcons2, ← hfl]
        exact (getD_at_boundary _ _ _ _).2
      have h3 : 2 * rs.length + 2 - 2 = 2 * rs.length := by omega
      rw [h1, h2, h3, ih (r.1 :: r.2 :: tail)]
      simp

/-- C5. For every nonempty list of registered `(object, finalizer)`
pairs, `jl_gc_run_finalizers_in_list` executes the pairs in exactly the
reverse of registration order: the pair occupying the first two slots runs
last and the pair registered last runs first. -/
theorem run_finalizers_in_list_reverse_order (m1 m2 : Nat)
    (ps : List (Nat × Nat)) (hne : ps ≠ []) :
    jl_gc_run_finalizers_in_list m1 m2 (finalizer_pairs_flat ps) =
      ps.reverse := by
  obtain ⟨p, qs, rfl⟩ := List.exists_cons_of_ne_nil hne
  obtain ⟨p1, p2⟩ := p
  show run_finalizers_loop (m1 :: m2 :: (finalizer_pairs_flat qs ++ [p1, p2]))
      ((m1 :: m2 :: (finalizer_pairs_flat qs ++ [p1, p2])).length - 4) ++
    [((m1 :: m2 :: (finalizer_pairs_flat qs ++ [p1, p2])).getD
        ((m1 :: m2 :: (finalizer_pairs_flat qs ++ [p1, p2])).length - 2) 0,
      (m1 :: m2 :: (finalizer_pairs_flat qs ++ [p1, p2])).getD
        ((m1 :: m2 :: (finalizer_pairs_flat qs ++ [p1, p2])).length - 1) 0)] =
    ((p1, p2) :: qs).reverse
  have hfl : (finalizer_pairs_flat qs).length = 2 * qs.length :=
    finalizer_pairs_flat_length qs
  have hlen : (m1 :: m2 :: (finalizer_pairs_flat qs ++ [p1, p2])).length =
      2 * qs.length + 4 := by
    simp [hfl]
  have hcons2 : ∀ (l : List Nat) (n : Nat),
      (m1 :: m2 :: l).getD (n + 2) 0 = l.getD n 0 := fun l n => rfl
  have e1 : 2 * qs.length + 4 - 4 = 2 * qs.length := by omega
  have e2 : 2 * qs.length + 4 - 2 = 2 * qs.length + 2 := by omega
  have e3 : 2 * qs.length + 4 - 1 = (2 * qs.length + 1) + 2 := by omega
  have hx : (finalizer_pairs_flat qs) ++ [p1, p2] =
      finalizer_pairs_flat qs ++ (p1 :: p2 :: ([] : List Nat)) := rfl
  have h1 : (m1 :: m2 :: (finalizer_pairs_flat qs ++ [p1, p2])).getD
      (2 * qs.length + 2) 0 = p1 := by
    rw [hcons2, hx, ← hfl]
    exact (getD_at_boundary _ _ _ _).1
  have h2 : (m1 :: m2 :: (finalizer_pairs_flat qs ++ [p1, p2])).getD
      ((2 * qs.length + 1) + 2) 0 = p2 := by
    rw [hcons2, hx, ← hfl]
    exact (getD_at_boundary _ _ _ _).2
  rw [hlen, e1, e2, e3, h1, h2,
    run_finalizers_loop_flat m1 m2 qs [p1, p2]]
  simp

/-- Witness for C5: three registered pairs run in the order third, second,
first. -/
theorem run_finalizers_in_list_reverse_order_witness :
    jl_gc_run_finalizers_in_list 90 91
        (finalizer_pairs_flat [(10, 11), (20, 21), (30, 31)]) =
      [(30, 31), (20, 21), (10, 11)] := by
  rw [run_finalizers_in_list_reverse_order 90 91
    [(10, 11), (20, 21), (30, 31)] (by simp)]
  rfl

/-! ### C10: the weak-reference sweep keeps exactly the marked entries -/

theorem set_of_getD_self {α : Type} [Inhabited α] (l : List α) (i : Nat) :
    l.set i (l.getD i default) = l := by
  induction l generalizing i with
  | nil => rfl
  | cons a t ih =>
      cases i with
      | zero => rfl
      | succ m =>
          show a :: t.set m (t.getD m default) = a :: t
          rw [ih]

theorem list_swap_self {α : Type} [Inhabited α] (l : List α) (i : Nat) :
    list_swap l i i = l := by
  show (l.set i (l.getD i default)).set i (l.getD i default) = l
  rw [set_of_getD_self, set_of_getD_self]

theorem getD_prefix_decomp {α : Type} [Inhabited α] (P : List α) (a : α)
    (R : List α) (i : Nat) (hi : i = P.length) :
    (P ++ a :: R).getD i default = a := by
  subst hi
  rw [List.getD_append_right _ _ _ _ le_rfl, Nat.sub_self]
  rfl

theorem set_prefix_decomp {α : Type} (P : List α) (a b : α) (R : List α)
    (i : Nat) (hi : i = P.length) :
    (P ++ a :: R).set i b = P ++ b :: R := by
  subst hi
  induction P with
  | nil => rfl
  | cons x t ih =>
      show x :: ((t ++ a :: R).set t.length b) = x :: (t ++ b :: R)
      rw [ih]

theorem list_swap_decomp {α : Type} [Inhabited α] (P : List α) (a : α)
    (D : List α) (b : α) (T : List α) (i j : Nat)
    (hi : i = P.length) (hj : j = P.length + (D.length + 1)) :
    list_swap (P ++ a :: (D ++ b :: T)) i j = P ++ b :: (D ++ a :: T) := by
  have hL2 : P ++ a :: (D ++ b :: T) = (P ++ a :: D) ++ b :: T := by simp
  have hj' : j = (P ++ a :: D).length := by
    rw [List.length_append, List.length_cons]
    exact hj
  have hgi : (P ++ a :: (D ++ b :: T)).getD i default = a :=
    getD_prefix_decomp P a _ i hi
  have hgj : (P ++ a :: (D ++ b :: T)).getD j default = b := by
    rw [hL2]
    exact getD_prefix_decomp (P ++ a :: D) b T j hj'
  show ((P ++ a :: (D ++ b :: T)).set i
      ((P ++ a :: (D ++ b :: T)).getD j default)).set j
      ((P ++ a :: (D ++ b :: T)).getD i default) = P ++ b :: (D ++ a :: T)
  rw [hgi, hgj, set_prefix_decomp P a b (D ++ b :: T) i hi]
  have h3 : P ++ b :: (D ++ b :: T) = (P ++ b :: D) ++ b :: T := by simp
  have hj'' : j = (P ++ b :: D).length := by
    rw [List.length_append, List.length_cons]
    exact hj
  rw [h3, set_prefix_decomp (P ++ b :: D) b a T j hj'']
  simp

theorem length_eq_countP_add {α : Type} (p : α → Bool) (l : List α) :
    l.length = l.countP p + l.countP (fun x => ! p x) := by
  induction l with
  | nil => rfl
  | cons a t ih => by_cases h : p a <;> simp [List.countP_cons, h, ih] <;> omega

theorem sweep_weak_refs_loop_spec {α : Type} [Inhabited α] (p : α → Bool)
    (us : List α) :
    ∀ (u : α) (S D : List α) (n ndel l : Nat),
      n = S.length → ndel = D.length →
      l = S.length + D.length + us.length + 1 →
      ∃ lst',
        sweep_weak_refs_loop p (S ++ u :: (D ++ us)) n ndel l =
          (lst', ndel + (u :: us).countP (fun x => ! p x)) ∧
        lst'.take (n + (u :: us).countP p) = S ++ (u :: us).filter p := by
  induction us with
  | nil =>
      intro u S D n ndel l hn hd hl
      simp only [List.length_nil] at hl
      have hgetD : (S ++ u :: (D ++ [])).getD n default = u :=
        getD_prefix_decomp S u _ n hn
      by_cases hp : p u
      · have hguard : l - ndel ≤ n + 1 := by omega
        have hloop : sweep_weak_refs_loop p (S ++ u :: (D ++ [])) n ndel l =
            (S ++ u :: (D ++ []), ndel) := by
          rw [sweep_weak_refs_loop, hgetD, if_pos hp, dif_pos hguard]
        refine ⟨S ++ u :: (D ++ []), ?_, ?_⟩
        · rw [hloop]
          congr 1
          simp [List.countP_cons, hp]
        · have e : n + (u :: ([] : List α)).countP p = S.length + 1 := by
            simp [List.countP_cons, hp, hn]
          rw [e]
          have htake : (S ++ u :: (D ++ [])).take (S.length + 1) =
              S ++ (u :: (D ++ [])).take 1 := List.take_append 1
          rw [htake]
          simp [List.filter_cons, hp]
      · have hguard : l - (ndel + 1) ≤ n := by omega
        have hloop : sweep_weak_refs_loop p (S ++ u :: (D ++ [])) n ndel l =
            (S ++ u :: (D ++ []), ndel + 1) := by
          rw [sweep_weak_refs_loop, hgetD, if_neg hp, dif_pos hguard]
        refine ⟨S ++ u :: (D ++ []), ?_, ?_⟩
        · rw [hloop]
          congr 1
          simp [List.countP_cons, hp]
        · have e : n + (u :: ([] : List α)).countP p = S.length + 0 := by
            simp [List.countP_cons, hp, hn]
          rw [e]
          have htake : (S ++ u :: (D ++ [])).take (S.length + 0) =
              S ++ (u :: (D ++ [])).take 0 := List.take_append 0
          rw [htake]
          simp [List.filter_cons, hp]
  | cons w ws ih =>
      intro u S D n ndel l hn hd hl
      simp only [List.length_cons] at hl
      have hgetD : (S ++ u :: (D ++ w :: ws)).getD n default = u :=
        getD_prefix_decomp S u _ n hn
      by_cases hp : p u
      · have hguard : ¬ (l - ndel ≤ n + 1) := by omega
        rcases D with - | ⟨d, ds⟩
        · have hndel : n + 1 + ndel = n + 1 := by
            simp only [hd, List.length_nil]
          have hstep : sweep_weak_refs_loop p (S ++ u :: ([] ++ w :: ws))
              n ndel l =
              sweep_weak_refs_loop p (S ++ u :: ([] ++ w :: ws))
                (n + 1) ndel l := by
            conv_lhs => rw [sweep_weak_refs_loop]
            rw [hgetD, if_pos hp, dif_neg hguard, hndel, list_swap_self]
          obtain ⟨lst', h1, h2⟩ := ih w (S ++ [u]) [] (n + 1) ndel l
            (by simp [hn]) hd (by simp at hl ⊢; omega)
          have hlist : (S ++ [u]) ++ w :: (([] : List α) ++ ws) =
              S ++ u :: (([] : List α) ++ w :: ws) := by simp
          rw [hlist] at h1
          refine ⟨lst', ?_, ?_⟩
          · rw [hstep, h1]
            congr 1
            simp [List.countP_cons, hp]
          · have e : n + (u :: w :: ws).countP p =
                n + 1 + (w :: ws).countP p := by
              simp [List.countP_cons, hp]
              omega
            rw [e, h2]
            simp [List.filter_cons, hp]
        · have hswap : list_swap (S ++ u :: ((d :: ds) ++ w :: ws))
              (n + 1) (n + 1 + ndel) =
              (S ++ [u]) ++ w :: ((ds ++ [d]) ++ ws) := by
            have hform : S ++ u :: ((d :: ds) ++ w :: ws) =
                (S ++ [u]) ++ d :: (ds ++ w :: ws) := by simp
            rw [hform, list_swap_decomp (S ++ [u]) d ds w ws
              (n + 1) (n + 1 + ndel) (by simp [hn])
              (by simp [hn, hd]; try omega)]
            simp
          have hstep : sweep_weak_refs_loop p
              (S ++ u :: ((d :: ds) ++ w :: ws)) n ndel l =
              sweep_weak_refs_loop p ((S ++ [u]) ++ w :: ((ds ++ [d]) ++ ws))
                (n + 1) ndel l := by
            conv_lhs => rw [sweep_weak_refs_loop]
            rw [hgetD, if_pos hp, dif_neg hguard, hswap]
          obtain ⟨lst', h1, h2⟩ := ih w (S ++ [u]) (ds ++ [d]) (n + 1) ndel l
            (by simp [hn]) (by simp [hd]) (by simp at hl ⊢; omega)
          refine ⟨lst', ?_, ?_⟩
          · rw [hstep, h1]
            congr 1
            simp [List.countP_cons, hp]
          · have e : n + (u :: w :: ws).countP p =
                n + 1 + (w :: ws).countP p := by
              simp [List.countP_cons, hp]
              omega
            rw [e, h2]
            simp [List.filter_cons, hp]
      · have hguard : ¬ (l - (ndel + 1) ≤ n) := by omega
        have hswap : list_swap (S ++ u :: (D ++ w :: ws)) n (n + (ndel + 1)) =
            S ++ w :: ((D ++ [u]) ++ ws) := by
          rw [list_swap_decomp S u D w ws n (n + (ndel + 1)) hn
            (by rw [hn, hd])]
          simp
        have hstep : sweep_weak_refs_loop p (S ++ u :: (D ++ w :: ws))
            n ndel l =
            sweep_weak_refs_loop p (S ++ w :: ((D ++ [u]) ++ ws))
              n (ndel + 1) l := by
          conv_lhs => rw [sweep_weak_refs_loop]
          rw [hgetD, if_neg hp, dif_neg hguard, hswap]
        obtain ⟨lst', h1, h2⟩ := ih w S (D ++ [u]) n (ndel + 1) l hn
          (by simp [hd]) (by simp at hl ⊢; omega)
        refine ⟨lst', ?_, ?_⟩
        · rw [hstep, h1]
          congr 1
          simp [List.countP_cons, hp]
          omega
        · have e : n + (u :: w :: ws).countP p = n + (w :: ws).countP p := by
            simp [List.countP_cons, hp]
          rw [e, h2]
          simp [List.filter_cons, hp]

theorem sweep_weak_refs_one_eq_filter {α : Type} [Inhabited α]
    (p : α → Bool) (lst : List α) :
    sweep_weak_refs_one p lst = lst.filter p := by
  rcases lst with - | ⟨u, us⟩
  · rfl
  · rw [sweep_weak_refs_one, if_neg (by simp : ¬ (u :: us).length = 0)]
    obtain ⟨lst', h1, h2⟩ := sweep_weak_refs_loop_spec p us u [] [] 0 0
      ((u :: us).length) rfl rfl (by simp)
    have hlist : ([] : List α) ++ u :: (([] : List α) ++ us) = u :: us := by
      simp
    rw [hlist] at h1
    show ((sweep_weak_refs_loop p (u :: us) 0 0 (u :: us).length).1).take
        ((u :: us).length -
          (sweep_weak_refs_loop p (u :: us) 0 0 (u :: us).length).2) =
      (u :: us).filter p
    rw [h1]
    have hcount : (u :: us).length -
        (0 + (u :: us).countP (fun x => ! p x)) = 0 + (u :: us).countP p := by
      have h := length_eq_countP_add p (u :: us)
      omega
    show lst'.take ((u :: us).length -
        (0 + (u :: us).countP (fun x => ! p x))) = (u :: us).filter p
    rw [hcount, h2]
    simp

/-- C10. After `sweep_weak_refs`, every thread's weak-reference list
contains exactly those entries of the original list whose own headers were
marked during the cycle — in fact exactly `filter` of the liveness check,
so in original order — and its length shrinks by the number of dead weak
references. -/
theorem sweep_weak_refs_keeps_exactly_marked
    (threads : List (Option (List WeakRef))) :
    sweep_weak_refs threads =
      threads.map (Option.map (List.filter wr_marked)) ∧
    ∀ lst : List WeakRef,
      sweep_weak_refs_one wr_marked lst = lst.filter wr_marked ∧
      (sweep_weak_refs_one wr_marked lst).length =
        lst.length - lst.countP (fun wr => ! wr_marked wr) := by
  constructor
  · rw [sweep_weak_refs]
    have hfun : (sweep_weak_refs_one wr_marked : List WeakRef → List WeakRef)
        = List.filter wr_marked :=
      funext (sweep_weak_refs_one_eq_filter wr_marked)
    rw [hfun]
  · intro lst
    refine ⟨sweep_weak_refs_one_eq_filter wr_marked lst, ?_⟩
    rw [sweep_weak_refs_one_eq_filter wr_marked lst]
    have h1 : (lst.filter wr_marked).length = lst.countP wr_marked :=
      (List.countP_eq_length_filter _ _).symm
    have h2 := length_eq_countP_add wr_marked lst
    omega

end GCSpec
